import Mathlib

set_option linter.unusedVariables false

/-!
Verification development for the document ingestion & retrieval pipeline of
the embed-demo-veinclinic repository.

JavaScript strings are modelled as lists of UTF-16 code units (`JStr`).
Regex-based character-class deletions become list filters, the two
whitespace-collapsing replacements become structural recursions, and
`String.prototype.trim` becomes a double `dropWhile` over the JS whitespace
set.  The ingest orchestrator (`POST` of app/api/jobs/ingest/route.ts) and
the answer orchestrator (app/api/agent/tools/answer_from_doc/route.ts) are
embedded as pure functions over an environment record that fixes the
outcome of each external call (storage download, extractor, embedding
service, vector index, language model).
-/

namespace Ingest

/-- A JavaScript string: its sequence of UTF-16 code units. -/
abbrev JStr := List Nat

/-- Code units matched by `/[\uD800-\uDFFF]/` in `scrubUnicode`. -/
def isSurrogate (c : Nat) : Bool := 0xD800 ≤ c && c ≤ 0xDFFF

/-- Code units matched by `/[\u0000-\u0008\u000B\u000C\u000E-\u001F\u007F-\u009F]/`. -/
def isCtl (c : Nat) : Bool :=
  c ≤ 0x08 || c == 0x0B || c == 0x0C || (0x0E ≤ c && c ≤ 0x1F) || (0x7F ≤ c && c ≤ 0x9F)

/-- Code units matched by `/[﷐-﷯]/`. -/
def isFdd (c : Nat) : Bool := 0xFDD0 ≤ c && c ≤ 0xFDEF

/-- Code units matched by `/[￾￿]/`. -/
def isFffe (c : Nat) : Bool := c == 0xFFFE || c == 0xFFFF

/-- The code units `scrubUnicode` keeps: everything its four character-class
deletions do not remove. -/
def scrubKeep (c : Nat) : Bool := !(isSurrogate c || isCtl c || isFdd c || isFffe c)

/-- The WhiteSpace and LineTerminator set of `String.prototype.trim`. -/
def isJsWs (c : Nat) : Bool :=
  c == 0x09 || c == 0x0A || c == 0x0B || c == 0x0C || c == 0x0D || c == 0x20 ||
  c == 0xA0 || c == 0x1680 || (0x2000 ≤ c && c ≤ 0x200A) ||
  c == 0x2028 || c == 0x2029 || c == 0x202F || c == 0x205F || c == 0x3000 || c == 0xFEFF

/-- Model of `s.trim()`: drop JS whitespace from both ends. -/
def jsTrim (l : JStr) : JStr := ((l.dropWhile isJsWs).reverse.dropWhile isJsWs).reverse

/-- The class `[ \t]` of the collapse regex. -/
def isWsTab (c : Nat) : Bool := c == 0x20 || c == 0x09

/-- Model of `s.replace(/[ \t]+\n/g, "\n")`: delete every space or tab that stands in a
run directly before a line feed. -/
def wsNlSq : JStr → JStr
  | [] => []
  | c :: rest =>
    let r := wsNlSq rest
    if isWsTab c && r.head? == some 10 then r else c :: r

/-- Model of `s.replace(/\n{3,}/g, "\n\n")`: collapse every run of three or more line
feeds to exactly two. -/
def nlSq : JStr → JStr
  | [] => []
  | c :: rest =>
    let r := nlSq rest
    if c == 10 && r.head? == some 10 && r.tail.head? == some 10 then r else c :: r

/-- Post-condition of `wsNlSq`: no space or tab directly before a line feed. -/
def noWsNl : List Nat → Prop
  | a :: b :: t => ¬(isWsTab a = true ∧ b = 10) ∧ noWsNl (b :: t)
  | _ => True

/-- Post-condition of `nlSq`: no run of three consecutive line feeds. -/
def no3Nl : List Nat → Prop
  | a :: b :: c :: t => ¬(a = 10 ∧ b = 10 ∧ c = 10) ∧ no3Nl (b :: c :: t)
  | _ => True

/-- Model of `scrubUnicode` of app/api/jobs/ingest/route.ts: the falsy-empty guard, the
four character-class deletions (modelled as one filter with the union of the
four classes), the two whitespace collapses, and the final trim. -/
def scrubUnicode (s : JStr) : JStr :=
  if s = [] then [] else jsTrim (nlSq (wsNlSq (s.filter scrubKeep)))

/-- Model of the `for (const ch of s)` iteration: pair each high surrogate with a directly
following low surrogate into one code point; lone surrogates stay as they are. -/
def codePoints : JStr → List Nat
  | [] => []
  | [c] => [c]
  | a :: b :: rest =>
    if (0xD800 ≤ a && a ≤ 0xDBFF) && (0xDC00 ≤ b && b ≤ 0xDFFF) then
      (0x10000 + (a - 0xD800) * 0x400 + (b - 0xDC00)) :: codePoints rest
    else a :: codePoints (b :: rest)

/-- UTF-16 encoding of one code point (`out += ch`). -/
def unitsOfCp (cp : Nat) : JStr :=
  if cp < 0x10000 then [cp]
  else [0xD800 + (cp - 0x10000) / 0x400, 0xDC00 + (cp - 0x10000) % 0x400]

/-- UTF-16 encoding of a code-point sequence. -/
def unitsOf (cps : List Nat) : JStr := (cps.map unitsOfCp).flatten

/-- The code points `sanitizeUnicode`'s loop keeps (`c & 0xffff` is `c % 2^16`). -/
def sanKeep (cp : Nat) : Bool :=
  !((0xD800 ≤ cp && cp ≤ 0xDFFF) ||
    (cp ≤ 0x1F && !(cp == 0x09 || cp == 0x0A || cp == 0x0D)) ||
    (0x7F ≤ cp && cp ≤ 0x9F) ||
    (cp % 0x10000 == 0xFFFE || cp % 0x10000 == 0xFFFF))

/-- Model of `sanitizeUnicode` of app/api/jobs/ingest/route.ts: the code-point loop
with its continue conditions, then the same collapse-and-trim chain. -/
def sanitizeUnicode (input : JStr) : JStr :=
  jsTrim (nlSq (wsNlSq (unitsOf ((codePoints input).filter sanKeep))))

/-- Model of `sliceByCodepoints`: `Array.from(s).slice(0, max).join("")`. -/
def sliceByCodepoints (s : JStr) (mx : Nat) : JStr := unitsOf ((codePoints s).take mx)

/-- Model of `safeSnippet`: `sliceByCodepoints(scrubUnicode(s), max)` (call sites use the
default `max = 500`). -/
def safeSnippet (s : JStr) (mx : Nat) : JStr := sliceByCodepoints (scrubUnicode s) mx

/-- Model of `text.replace(/\r\n/g, "\n")`. -/
def normNl : JStr → JStr
  | [] => []
  | [c] => [c]
  | a :: b :: rest =>
    if a == 13 && b == 10 then 10 :: normNl rest
    else a :: normNl (b :: rest)

/-- Model of `text.split(/\n{2,}/)`: segments between maximal runs of two or more line
feeds (single line feeds stay inside a segment). -/
def splitBlank (l : JStr) : List JStr :=
  match l with
  | [] => [[]]
  | [a] => [[a]]
  | a :: b :: rest2 =>
    if a == 10 && b == 10 then
      [] :: splitBlank (rest2.dropWhile (fun c => c == 10))
    else
      match splitBlank (b :: rest2) with
      | [] => [[a]]
      | s :: ss => (a :: s) :: ss
termination_by l.length
decreasing_by
  · have h' := fun (l' : List Nat) => (List.dropWhile_sublist (l := l') (fun c => c == 10)).length_le
    simp only [List.length_cons]
    exact Nat.lt_of_le_of_lt (h' _) (by omega)
  · simp only [List.length_cons]
    omega

/-- The paragraph list of `smartChunk`:
`text.replace(/\r\n/g,"\n").split(/\n{2,}/).map(p => p.trim()).filter(Boolean)`. -/
def paras (text : JStr) : List JStr :=
  ((splitBlank (normNl text)).map jsTrim).filter (fun p => !p.isEmpty)

/-- The hard-slicing `while` loop inside `flush`.  `fuel` bounds the number of
iterations; every call below supplies `s.length + 1`, which is enough whenever
`overlap < maxChars` (each step advances `start` by at least one). -/
def hardSliceGo (s : JStr) (maxChars overlap : Nat) : Nat → Nat → List JStr
  | 0, _ => []
  | fuel + 1, start =>
    if start < s.length then
      let e := min (start + maxChars) s.length
      let piece := (s.drop start).take (e - start)
      if e = s.length then [piece]
      else piece :: hardSliceGo s maxChars overlap fuel (e - overlap)
    else []

/-- The `flush` closure of `smartChunk`: trim the buffer, drop it when empty,
hard-slice it when longer than `maxChars`, otherwise emit it whole.  Every
chunk carries path `"root"` and no heading, so a chunk is just its text. -/
def flushChunk (maxChars overlap : Nat) (buf : JStr) : List JStr :=
  let s := jsTrim buf
  if s.isEmpty then []
  else if maxChars < s.length then hardSliceGo s maxChars overlap (s.length + 1) 0
  else [s]

/-- The paragraph-accumulation loop of `smartChunk` followed by the final
flush.  `buf.length > maxChars * 1.5` is the integer-exact
`2 * buf.length > 3 * maxChars`. -/
def smartChunkGo (maxChars overlap : Nat) : List JStr → JStr → List JStr
  | [], buf => flushChunk maxChars overlap buf
  | p :: ps, buf =>
    let candidate := if buf.isEmpty then p else buf ++ [10, 10] ++ p
    if maxChars < candidate.length then
      flushChunk maxChars overlap buf ++
        (if 3 * maxChars < 2 * p.length then
          flushChunk maxChars overlap p ++ smartChunkGo maxChars overlap ps []
        else smartChunkGo maxChars overlap ps p)
    else smartChunkGo maxChars overlap ps candidate

/-- Model of `smartChunk(text, maxChars, overlap)` (defaults 1800 and 200 at the call
site in `POST`). -/
def smartChunk (text : JStr) (maxChars overlap : Nat) : List JStr :=
  smartChunkGo maxChars overlap (paras text) []

/-- Model of `chunkArray(arr, size)`.  The JS loop never terminates for `size = 0`;
every call site uses 96 or 150, and the model returns `[]` on that
unreachable input. -/
def chunkArray (l : List α) (size : Nat) : List (List α) :=
  if l.isEmpty ∨ size = 0 then [] else l.take size :: chunkArray (l.drop size) size
termination_by l.length
decreasing_by
  rename_i h
  rcases l with _ | ⟨x, xs⟩
  · simp at h
  · simp only [List.length_drop, List.length_cons]
    omega

/-- One output of `embedChunks`: an embedding value array, the constant path
`"root"`, and the raw snippet `b[i].slice(0, 500)` of the source chunk text. -/
structure Vec where
  values : List Int
  path : String
  snippet : JStr
deriving Repr, DecidableEq

/-- Model of `String(i)` for the record id suffix: ASCII decimal digits of `i`. -/
def decDigits (n : Nat) : List Nat :=
  if n < 10 then [48 + n] else decDigits (n / 10) ++ [48 + n % 10]
termination_by n
decreasing_by exact Nat.div_lt_self (by omega) (by omega)

/-- Decimal read-back used to prove `decDigits` injective. -/
def decVal (l : List Nat) : Nat := l.foldl (fun a d => 10 * a + (d - 48)) 0

/-- A Pinecone record as built in step 5 of `POST`: id
`` `${document_id}-${i}` `` and metadata
`{document_id, doc_version_id, idx, path, text_snippet}`. -/
structure PineRec where
  rid : JStr
  values : List Int
  document_id : JStr
  doc_version_id : JStr
  idx : Nat
  path : String
  text_snippet : JStr
deriving Repr, DecidableEq

/-- Model of `vectors.map((v, i) => ({id, values, metadata}))` of step 5 of `POST`;
45 is the code unit of `-`, and `text_snippet` is `safeSnippet(v.snippet)`. -/
def mkRecords (document_id doc_version_id : JStr) (vectors : List Vec) : List PineRec :=
  vectors.enum.map fun iv =>
    { rid := document_id ++ [45] ++ decDigits iv.1
      values := iv.2.values
      document_id := document_id
      doc_version_id := doc_version_id
      idx := iv.1
      path := iv.2.path
      text_snippet := safeSnippet iv.2.snippet 500 }

/-- Upsert of a single record into a namespace: replace the record with the
same id when present, append otherwise (the vector store's semantics the
source relies on for deterministic-id overwrites). -/
def upsertRec (ns : List PineRec) (r : PineRec) : List PineRec :=
  if ns.any (fun x => x.rid == r.rid) then
    ns.map (fun x => if x.rid == r.rid then r else x)
  else ns ++ [r]

/-- Model of `index.namespace(ns).upsert(batch)`: upsert each record of the batch. -/
def upsertBatch (ns : List PineRec) (rs : List PineRec) : List PineRec :=
  rs.foldl upsertRec ns

/-- The indexing step of `POST`, restricted to the namespace
`doc:<document_id>:v:<doc_version_id>`: `deleteAll()` empties it, then the
records are upserted in batches of 150 (the success path; a failed batch is
handled by the orchestrator). -/
def indexRun (ns : List PineRec) (records : List PineRec) : List PineRec :=
  (chunkArray records 150).foldl upsertBatch []

/-- Model of `withRetry(fn, tries)`.  The external call is a double `fn` mapping the
0-based attempt number to a result; the model returns the JS outcome (with
`throw lastErr` as `Except.error` of the last stored error, `none` when no
attempt ran) together with the number of attempts actually made. -/
def retryGo (fn : Nat → Except ε α) : Nat → Nat → Option ε → Except (Option ε) α × Nat
  | _, 0, last => (Except.error last, 0)
  | i, r + 1, _ =>
    match fn i with
    | Except.ok a => (Except.ok a, 1)
    | Except.error e =>
      let p := retryGo fn (i + 1) r (some e)
      (p.1, p.2 + 1)

/-- The `withRetry` entry point: first attempt index 0, no stored error. -/
def withRetry (fn : Nat → Except ε α) (tries : Nat) : Except (Option ε) α × Nat :=
  retryGo fn 0 tries none

/-- Model of `embedChunks(chunks, model, openai)` with the embedding service as a
double `create` from a batch of inputs to its `emb.data` value arrays:
batches of 96, `emb.data.map((d, i) => ({values, path: "root", snippet:
b[i].slice(0, 500)}))`, results concatenated in batch order.  The non-null
assertion `b[i]!` is modelled as `getD i []`. -/
def embedChunks (create : List JStr → List (List Int)) (chunks : List JStr) : List Vec :=
  ((chunkArray chunks 96).map fun b =>
    (create b).enum.map fun di =>
      { values := di.2, path := "root", snippet := (b.getD di.1 []).take 500 }).flatten

/-- A row of the `jobs` table as far as the pipeline writes it. -/
structure JobRow where
  jstatus : String
  jerror : Option String
deriving Repr, DecidableEq

/-- The relational state the ingest claims are about: `doc_versions.status`
keyed by version id, and `jobs` keyed by (document id, version id). -/
structure Db where
  versionStatus : List (JStr × String)
  jobs : List ((JStr × JStr) × JobRow)
deriving Repr, DecidableEq

/-- Insert-or-replace into an association list (supabase `upsert` /
`update ... eq(id)` on a present row). -/
def setAssoc [BEq κ] (m : List (κ × β)) (k : κ) (v : β) : List (κ × β) :=
  if m.any (fun e => e.1 == k) then m.map (fun e => if e.1 == k then (k, v) else e)
  else m ++ [(k, v)]

/-- Model of `markFailed(document_id, doc_version_id, error)`: set the version status
to `error` and upsert a failed job row carrying the error message. -/
def markFailed (db : Db) (document_id doc_version_id : JStr) (error : String) : Db :=
  { versionStatus := setAssoc db.versionStatus doc_version_id "error"
    jobs := setAssoc db.jobs (document_id, doc_version_id) ⟨"failed", some error⟩ }

/-- Body of a `NextResponse.json` of the ingest route. -/
inductive RespBody
  | ok (document_id doc_version_id : JStr) (chunks : Nat)
  | err (msg : String)
deriving Repr, DecidableEq

/-- A response: HTTP status plus JSON body. -/
structure Resp where
  status : Nat
  body : RespBody
deriving Repr, DecidableEq

/-- Outcomes of the external calls the ingest `POST` makes after its rows are
initialized.  `extract` is `extractText` with its `.catch(() => "")`, so a
failed extraction is the empty result; `nfc` is the external
`String.prototype.normalize("NFC")`; `embedOut` is the outcome of
`embedChunks` (vectors or a rejected promise); `upsert` is the outcome of
the batched Pinecone upsert loop. -/
structure IngestEnv where
  bucket : String
  key : String
  download : Except String JStr
  extract : JStr → JStr
  nfc : JStr → JStr
  embedOut : List JStr → Except String (List Vec)
  pineconeDim : Nat
  upsert : List PineRec → Except String Unit

/-- The value `vectors[0]?.values.length` rendered for the dimension-mismatch message. -/
def headDimStr (vectors : List Vec) : String :=
  match vectors.head? with
  | some v => toString v.values.length
  | none => "undefined"

/-- The ingest `POST` orchestrator from the download step on (the earlier
document/version/share-surface upserts are best-effort; the one with an
observable effect here is `doc_versions.upsert {status: "processing"}`).
Caller-supplied `document_id` and `doc_version_id` are parameters.  Each
fatal branch mirrors the source: download failure (500), empty extraction
(400), empty chunking (400), embedding failure (500 via the outer catch,
without `markFailed`), dimension mismatch (500), upsert failure (500). -/
def ingestPOST (env : IngestEnv) (document_id doc_version_id : JStr) (db0 : Db) : Db × Resp :=
  let db := { db0 with versionStatus := setAssoc db0.versionStatus doc_version_id "processing" }
  match env.download with
  | Except.error e =>
    let msg := "Download failed from bucket=" ++ env.bucket ++ " key=" ++ env.key ++ ": " ++ e
    (markFailed db document_id doc_version_id msg, ⟨500, RespBody.err msg⟩)
  | Except.ok bytes =>
    let rawText := env.extract bytes
    if rawText.isEmpty then
      let msg := "No text extracted (unsupported or empty)"
      (markFailed db document_id doc_version_id msg, ⟨400, RespBody.err msg⟩)
    else
      let sanitized := scrubUnicode rawText
      let cleaned := sanitizeUnicode (env.nfc sanitized)
      let chunks := smartChunk cleaned 1800 200
      if chunks.isEmpty then
        let msg := "No chunks produced"
        (markFailed db document_id doc_version_id msg, ⟨400, RespBody.err msg⟩)
      else
        match env.embedOut chunks with
        | Except.error _ => (db, ⟨500, RespBody.err "embedding failed"⟩)
        | Except.ok vectors =>
          if vectors.any (fun v => v.values.length != env.pineconeDim) then
            let msg := "Embedding dim " ++ headDimStr vectors ++
              " != Pinecone index dim " ++ toString env.pineconeDim
            (markFailed db document_id doc_version_id msg, ⟨500, RespBody.err msg⟩)
          else
            match env.upsert (mkRecords document_id doc_version_id vectors) with
            | Except.error e =>
              let msg := "pinecone upsert failed: " ++ e
              (markFailed db document_id doc_version_id msg, ⟨500, RespBody.err msg⟩)
            | Except.ok _ =>
              let db2 := { db with versionStatus := setAssoc db.versionStatus doc_version_id "ready" }
              let db3 := { db2 with jobs := setAssoc db2.jobs (document_id, doc_version_id) ⟨"succeeded", none⟩ }
              (db3, ⟨200, RespBody.ok document_id doc_version_id chunks.length⟩)

/-! Concrete doubles used to instantiate the theorems below. -/

/-- A call double that fails on attempts 0, 1, 2 and succeeds on attempt 3. -/
def failThriceFn (i : Nat) : Except Nat Nat :=
  if i < 3 then Except.error i else Except.ok 42

/-- A call double that fails on every attempt. -/
def alwaysFailFn (i : Nat) : Except Nat Nat := Except.error i

/-- An empty relational state. -/
def dbW : Db := ⟨[], []⟩

/-- An ingest environment whose external calls all succeed on a one-letter
text document. -/
def envBase : IngestEnv :=
  { bucket := "b"
    key := "k"
    download := Except.ok [97]
    extract := fun bytes => bytes
    nfc := fun t => t
    embedOut := fun _ => Except.ok [⟨[1], "root", [97]⟩]
    pineconeDim := 1
    upsert := fun _ => Except.ok () }

/-- Variant of `envBase` with a failing storage download. -/
def envDl : IngestEnv := { envBase with download := Except.error "boom" }

/-- Variant of `envBase` whose extractor yields no text. -/
def envNoText : IngestEnv := { envBase with extract := fun _ => [] }

/-- Variant of `envBase` whose extractor yields only a space, so sanitization leaves no
content and chunking produces nothing. -/
def envNoChunks : IngestEnv := { envBase with extract := fun _ => [32] }

/-- Variant of `envBase` whose embedding double returns 2-dimensional vectors against a
configured index dimensionality of 1. -/
def envDim : IngestEnv :=
  { envBase with embedOut := fun _ => Except.ok [⟨[1, 2], "root", [97]⟩] }

/-- Variant of `envBase` with a failing vector-index upsert. -/
def envUp : IngestEnv := { envBase with upsert := fun _ => Except.error "down" }

/-- A per-input embedding double for the embedding-order theorem. -/
def embedOneW (c : JStr) : List Int := [Int.ofNat c.length]

/-- The batched embedding service induced by `embedOneW`. -/
def createW (b : List JStr) : List (List Int) := b.map embedOneW

end Ingest

namespace AnswerFromDoc

open Ingest (JStr)

/-- One Pinecone match as the answer route consumes it. -/
structure MatchRec where
  score : Int
  idx : Nat
  mpath : String
  text_snippet : JStr
deriving Repr, DecidableEq

/-- One element of the `citations` array of the answer response. -/
structure Citation where
  tag : String
  idx : Nat
  cpath : String
  excerpt : JStr
  score : Int
deriving Repr, DecidableEq

/-- Body of an answer-route response. -/
inductive ABody
  | ok (text : String) (citations : List Citation)
  | err (msg : String)
deriving Repr, DecidableEq

/-- An answer-route response: HTTP status plus JSON body. -/
structure AResp where
  status : Nat
  body : ABody
deriving Repr, DecidableEq

/-- External-world inputs of one answer-route request: the configured tool
secret and the request header, the normalized question `q`, the resolved
(document id, version id) pair (`none` when neither ids nor a known slug
were supplied), the outcome of embedding the question, the vector-index
matches, and the completion model as a function from the assembled prompt
to the (trimmed) answer text. -/
structure AnswerEnv where
  toolSecret : Option String
  headerSecret : Option String
  q : String
  resolvedIds : Option (JStr × JStr)
  embedQ : Except String (List Int)
  hits : List MatchRec
  llm : String → String

/-- The canned insufficient-context text of the zero-match branch. -/
def noContextText : String :=
  "I don’t have enough context from the document to answer that."

/-- Code units of a Lean string, for prompt assembly over `JStr` snippets. -/
def uStr (s : String) : JStr := s.toList.map Char.toNat

/-- Code units back to a string (prompt assembly only). -/
def strOfUnits (l : JStr) : String := String.mk (l.map Char.ofNat)

/-- The grounded context block: `[#n | idx i]\n<snippet>` blocks joined by
blank lines, sliced to `MAX_CONTEXT_CHARS = 12000`. -/
def buildContext (hits : List MatchRec) : JStr :=
  (List.intercalate [10, 10] (hits.enum.map fun im =>
    uStr ("[#" ++ toString (im.1 + 1) ++ " | idx " ++ toString im.2.idx ++ "]\n") ++
      im.2.text_snippet)).take 12000

/-- The answer `POST` after payload normalization, with the result paired
with the number of chat-completion invocations made.  Mirrors the source
order: optional shared-secret check (401), missing question (400), missing
ids (400), query-embedding failure (500), the zero-match canned response,
then the single LLM call with its citations list. -/
def answerPOST (env : AnswerEnv) : AResp × Nat :=
  match env.toolSecret with
  | some s =>
    if env.headerSecret ≠ some s then (⟨401, ABody.err "unauthorized"⟩, 0)
    else answerCore env
  | none => answerCore env
where
  answerCore (env : AnswerEnv) : AResp × Nat :=
    if env.q = "" then (⟨400, ABody.err "q required"⟩, 0)
    else
      match env.resolvedIds with
      | none => (⟨400, ABody.err "Provide slug or (document_id + doc_version_id)"⟩, 0)
      | some _ =>
        match env.embedQ with
        | Except.error _ => (⟨500, ABody.err "Embedding failed"⟩, 0)
        | Except.ok _ =>
          if env.hits.isEmpty then
            (⟨200, ABody.ok noContextText []⟩, 0)
          else
            let userMsg := "Question:\n" ++ env.q ++ "\n\nContext:\n" ++
              strOfUnits (buildContext env.hits)
            let answer := env.llm userMsg
            let citations := env.hits.enum.map fun im =>
              { tag := "#" ++ toString (im.1 + 1)
                idx := im.2.idx
                cpath := im.2.mpath
                excerpt := im.2.text_snippet.take 300
                score := im.2.score }
            (⟨200, ABody.ok (if answer = "" then "I don’t know." else answer) citations⟩, 1)

/-- An answer environment with no configured secret, a non-empty question,
resolved ids, a successful query embedding, and zero vector matches. -/
def envZeroHits : AnswerEnv :=
  { toolSecret := none
    headerSecret := none
    q := "hi"
    resolvedIds := some ([100], [118])
    embedQ := Except.ok [1]
    hits := []
    llm := fun _ => "answer" }

end AnswerFromDoc


namespace Ingest

/-! ### Shared facts about the sanitizer building blocks -/

theorem wsNlSq_subset (l : JStr) : wsNlSq l ⊆ l := by
  induction l with
  | nil => simp [wsNlSq]
  | cons a rest ih =>
    intro c hc
    simp only [wsNlSq] at hc
    split at hc
    · exact List.mem_cons_of_mem _ (ih hc)
    · rcases List.mem_cons.mp hc with rfl | hc
      · exact List.mem_cons_self _ _
      · exact List.mem_cons_of_mem _ (ih hc)

theorem nlSq_subset (l : JStr) : nlSq l ⊆ l := by
  induction l with
  | nil => simp [nlSq]
  | cons a rest ih =>
    intro c hc
    simp only [nlSq] at hc
    split at hc
    · exact List.mem_cons_of_mem _ (ih hc)
    · rcases List.mem_cons.mp hc with rfl | hc
      · exact List.mem_cons_self _ _
      · exact List.mem_cons_of_mem _ (ih hc)

theorem jsTrim_subset (l : JStr) : jsTrim l ⊆ l := by
  intro c hc
  unfold jsTrim at hc
  rw [List.mem_reverse] at hc
  have h1 := List.dropWhile_subset (l := (l.dropWhile isJsWs).reverse) isJsWs hc
  rw [List.mem_reverse] at h1
  exact List.dropWhile_subset isJsWs h1

theorem scrubUnicode_subset_keep (s : JStr) : ∀ c ∈ scrubUnicode s, scrubKeep c = true := by
  intro c hc
  unfold scrubUnicode at hc
  split at hc
  · simp at hc
  · have := wsNlSq_subset _ (nlSq_subset _ (jsTrim_subset _ hc))
    exact (List.mem_filter.mp this).2

theorem scrubUnicode_mem_subset (s : JStr) : ∀ c ∈ scrubUnicode s, c ∈ s := by
  intro c hc
  unfold scrubUnicode at hc
  split at hc
  · simp at hc
  · have := wsNlSq_subset _ (nlSq_subset _ (jsTrim_subset _ hc))
    exact (List.mem_filter.mp this).1

/-- A list free of high surrogates is its own code-point sequence. -/
theorem codePoints_eq_self_of_no_high (l : JStr)
    (h : ∀ c ∈ l, ¬(0xD800 ≤ c ∧ c ≤ 0xDBFF)) : codePoints l = l := by
  induction l with
  | nil => rfl
  | cons a rest ih =>
    cases rest with
    | nil => rfl
    | cons b rest2 =>
      have ha := h a (List.mem_cons_self _ _)
      have hcond : ((0xD800 ≤ a && a ≤ 0xDBFF) && (0xDC00 ≤ b && b ≤ 0xDFFF)) = false := by
        by_cases h1 : 0xD800 ≤ a
        · by_cases h2 : a ≤ 0xDBFF
          · exact absurd ⟨h1, h2⟩ ha
          · simp [h2]
        · simp [h1]
      rw [codePoints, if_neg (by simp [hcond])]
      congr 1
      exact ih (fun c hc => h c (List.mem_cons_of_mem _ hc))


/-! ### C3: every produced chunk fits the budget -/

theorem hardSliceGo_length_le (s : JStr) (maxChars overlap : Nat) :
    ∀ fuel start c, c ∈ hardSliceGo s maxChars overlap fuel start → c.length ≤ maxChars := by
  intro fuel
  induction fuel with
  | zero => intro start c hc; simp [hardSliceGo] at hc
  | succ n ih =>
    intro start c hc
    simp only [hardSliceGo] at hc
    split at hc
    · split at hc
      · rcases List.mem_singleton.mp hc with rfl
        simp only [List.length_take, List.length_drop]
        omega
      · rcases List.mem_cons.mp hc with rfl | hc
        · simp only [List.length_take, List.length_drop]
          omega
        · exact ih _ _ hc
    · simp at hc

theorem flushChunk_length_le (maxChars overlap : Nat) (buf : JStr) :
    ∀ c ∈ flushChunk maxChars overlap buf, c.length ≤ maxChars := by
  intro c hc
  simp only [flushChunk] at hc
  split at hc
  · simp at hc
  · split at hc
    · exact hardSliceGo_length_le _ _ _ _ _ _ hc
    · rcases List.mem_singleton.mp hc with rfl
      omega

theorem smartChunkGo_length_le (maxChars overlap : Nat) :
    ∀ ps buf c, c ∈ smartChunkGo maxChars overlap ps buf → c.length ≤ maxChars := by
  intro ps
  induction ps with
  | nil => intro buf c hc; exact flushChunk_length_le _ _ _ _ hc
  | cons p ps ih =>
    intro buf c hc
    simp only [smartChunkGo] at hc
    split at hc <;>
    [skip; skip] <;>
    (first
      | (split at hc
         · rcases List.mem_append.mp hc with hc | hc
           · exact flushChunk_length_le _ _ _ _ hc
           · split at hc
             · rcases List.mem_append.mp hc with hc | hc
               · exact flushChunk_length_le _ _ _ _ hc
               · exact ih _ _ hc
             · exact ih _ _ hc
         · exact ih _ _ hc))

/-- C3: for every input text and every `maxChars` budget (and any overlap,
the default being 200), every chunk produced by `smartChunk` has length at
most `maxChars`: buffers within budget are emitted whole, and an oversized
buffer is hard-sliced into windows of at most `maxChars` code units. -/
theorem smartChunk_chunk_length_le (text : JStr) (maxChars overlap : Nat) :
    ∀ c ∈ smartChunk text maxChars overlap, c.length ≤ maxChars := by
  intro c hc
  exact smartChunkGo_length_le maxChars overlap _ _ _ hc

/-! ### Evaluation helpers for concrete inputs (the well-founded recursions
`splitBlank`, `chunkArray` and `decDigits` do not reduce definitionally). -/

theorem splitBlank_nil : splitBlank [] = [[]] := by rw [splitBlank.eq_def]

theorem splitBlank_ne_nil (l : JStr) : splitBlank l ≠ [] := by
  rw [splitBlank.eq_def]
  split
  · simp
  · simp
  · split
    · simp
    · split <;> simp

/-- A text without line feeds is a single segment of `split(/\n{2,}/)`. -/
theorem splitBlank_no_nl : ∀ (l : JStr), (∀ c ∈ l, c ≠ 10) → splitBlank l = [l]
  | [], _ => splitBlank_nil
  | [a], _ => by rw [splitBlank.eq_def]
  | a :: b :: rest2, h => by
    have ha : a ≠ 10 := h a (List.mem_cons_self _ _)
    have hrec := splitBlank_no_nl (b :: rest2) (fun c hc => h c (List.mem_cons_of_mem _ hc))
    rw [splitBlank.eq_def]
    simp only [hrec]
    rw [if_neg (by simp [ha])]

/-- A text without carriage returns is unchanged by `replace(/\r\n/g, "\n")`. -/
theorem normNl_no_cr (l : JStr) (h : ∀ c ∈ l, c ≠ 13) : normNl l = l := by
  induction l with
  | nil => rfl
  | cons a rest ih =>
    cases rest with
    | nil => rfl
    | cons b rest2 =>
      have ha : a ≠ 13 := h a (List.mem_cons_self _ _)
      rw [normNl, if_neg (by simp [ha])]
      rw [ih (fun c hc => h c (List.mem_cons_of_mem _ hc))]

theorem dropWhile_eq_self_of_not (p : Nat → Bool) (l : JStr)
    (h : ∀ c ∈ l, p c = false) : l.dropWhile p = l := by
  cases l with
  | nil => rfl
  | cons a rest =>
    exact List.dropWhile_cons_of_neg (by simp [h a (List.mem_cons_self _ _)])

theorem jsTrim_eq_self_of_no_ws (l : JStr) (h : ∀ c ∈ l, isJsWs c = false) :
    jsTrim l = l := by
  unfold jsTrim
  rw [dropWhile_eq_self_of_not _ _ h,
    dropWhile_eq_self_of_not _ _ (fun c hc => h c (by simpa using hc)),
    List.reverse_reverse]

/-- Witness for C3 at a concrete input: the one-chunk result of a one-letter
text fits the default budget. -/
theorem smartChunk_chunk_length_le_witness :
    [97] ∈ smartChunk [97] 1800 200 ∧ ([97] : JStr).length ≤ 1800 := by
  have hp : paras [97] = [[97]] := by
    unfold paras
    rw [normNl_no_cr _ (by decide), splitBlank_no_nl _ (by decide)]
    simp [jsTrim_eq_self_of_no_ws [97] (by decide)]
  have hmem : [97] ∈ smartChunk [97] 1800 200 := by
    unfold smartChunk
    rw [hp]
    simp [smartChunkGo, flushChunk, jsTrim_eq_self_of_no_ws [97] (by decide)]
  exact ⟨hmem, smartChunk_chunk_length_le [97] 1800 200 [97] hmem⟩

/-! ### C7: the sanitizer strips surrogates and non-characters -/

/-- C7: on any well-formed UTF-16 input, the output of `scrubUnicode`
contains no code unit in the surrogate range, and — read as code points —
no non-character (neither the `U+FDD0`–`U+FDEF` block nor a code point
whose low 16 bits are `FFFE` or `FFFF`, which covers the last two code
points of every plane); it is total by construction and maps the empty
string to the empty string. -/
theorem scrubUnicode_no_invalid (s : JStr) (hwf : ∀ u ∈ s, u < 0x10000) :
    (∀ u ∈ scrubUnicode s, ¬(0xD800 ≤ u ∧ u ≤ 0xDFFF)) ∧
    (∀ cp ∈ codePoints (scrubUnicode s),
        ¬(0xFDD0 ≤ cp ∧ cp ≤ 0xFDEF) ∧ ¬(0xFFFE ≤ cp % 0x10000)) ∧
    scrubUnicode [] = [] := by
  have hkeep := scrubUnicode_subset_keep s
  have hs : ∀ u ∈ scrubUnicode s, ¬(0xD800 ≤ u ∧ u ≤ 0xDFFF) := by
    intro u hu
    have := hkeep u hu
    simp [scrubKeep, isSurrogate, isCtl, isFdd, isFffe] at this
    omega
  refine ⟨hs, ?_, rfl⟩
  have hcp : codePoints (scrubUnicode s) = scrubUnicode s :=
    codePoints_eq_self_of_no_high _ (fun c hc => by
      have := hs c hc
      omega)
  rw [hcp]
  intro cp hcp'
  have hk := hkeep cp hcp'
  have hlt : cp < 0x10000 := hwf cp (scrubUnicode_mem_subset s cp hcp')
  simp [scrubKeep, isSurrogate, isCtl, isFdd, isFffe] at hk
  rw [Nat.mod_eq_of_lt hlt]
  omega

/-- Witness for C7 at a concrete input containing a lone surrogate, a
`U+FDD0` non-character and `U+FFFE`. -/
theorem scrubUnicode_no_invalid_witness :
    (∀ u ∈ ([0xD800, 97, 0xFDD0, 0xFFFE, 98] : JStr), u < 0x10000) ∧
    ((∀ u ∈ scrubUnicode [0xD800, 97, 0xFDD0, 0xFFFE, 98],
        ¬(0xD800 ≤ u ∧ u ≤ 0xDFFF)) ∧
      (∀ cp ∈ codePoints (scrubUnicode [0xD800, 97, 0xFDD0, 0xFFFE, 98]),
          ¬(0xFDD0 ≤ cp ∧ cp ≤ 0xFDEF) ∧ ¬(0xFFFE ≤ cp % 0x10000)) ∧
      scrubUnicode [] = []) :=
  ⟨by decide, scrubUnicode_no_invalid _ (by decide)⟩

/-! ### C5: the embedding retry wrapper makes at most 4 attempts -/

/-- C5: `withRetry` with `tries = 4`: when the call fails on attempts 0, 1
and 2 and succeeds on attempt 3, the wrapper returns that success having
made exactly 4 attempts; when the call fails on all of attempts 0 to 3, the
wrapper propagates the error of the 4th (final) attempt and stops after
exactly 4 attempts. -/
theorem withRetry_retry_policy (fn : Nat → Except ε α) (a : α) (errs : Nat → ε) :
    ((∀ i, i < 3 → fn i = Except.error (errs i)) → fn 3 = Except.ok a →
      withRetry fn 4 = (Except.ok a, 4)) ∧
    ((∀ i, i < 4 → fn i = Except.error (errs i)) →
      withRetry fn 4 = (Except.error (some (errs 3)), 4)) := by
  constructor
  · intro hf h3
    have h0 := hf 0 (by omega)
    have h1 := hf 1 (by omega)
    have h2 := hf 2 (by omega)
    simp [withRetry, retryGo, h0, h1, h2, h3]
  · intro hf
    have h0 := hf 0 (by omega)
    have h1 := hf 1 (by omega)
    have h2 := hf 2 (by omega)
    have h3 := hf 3 (by omega)
    simp [withRetry, retryGo, h0, h1, h2, h3]

/-- Witness for C5 on the two concrete call doubles. -/
theorem withRetry_retry_policy_witness :
    withRetry failThriceFn 4 = (Except.ok 42, 4) ∧
    withRetry alwaysFailFn 4 = (Except.error (some 3), 4) :=
  ⟨(withRetry_retry_policy failThriceFn 42 (fun i => i)).1
      (fun i hi => by simp [failThriceFn, hi]) (by simp [failThriceFn]),
   (withRetry_retry_policy alwaysFailFn 42 (fun i => i)).2
      (fun i hi => rfl)⟩

end Ingest

namespace AnswerFromDoc

/-! ### C9: zero matches yield the canned response without an LLM call -/

/-- C9: in the answer route, whenever the request passes the secret check,
carries a non-empty question and resolved ids, and the query embedding
succeeds, a vector query returning zero matches produces the 200 response
with the canned insufficient-context text and an empty citations list, and
the chat-completion model is invoked zero times. -/
theorem answer_zero_matches_canned (env : AnswerEnv)
    (hauth : env.toolSecret = none ∨ env.headerSecret = env.toolSecret)
    (hq : env.q ≠ "") (hids : env.resolvedIds.isSome)
    (hemb : ∃ v, env.embedQ = Except.ok v) (hm : env.hits = []) :
    answerPOST env = (⟨200, ABody.ok noContextText []⟩, 0) := by
  obtain ⟨v, hv⟩ := hemb
  have hcore : answerPOST.answerCore env = (⟨200, ABody.ok noContextText []⟩, 0) := by
    obtain ⟨ids, hids'⟩ := Option.isSome_iff_exists.mp hids
    simp [answerPOST.answerCore, hq, hids', hv, hm]
  unfold answerPOST
  rcases hauth with h | h
  · simp [h, hcore]
  · cases hsec : env.toolSecret with
    | none => simp [hcore]
    | some sec =>
      rw [hsec] at h
      simp [h, hcore]

/-- Witness for C9 at a concrete zero-match environment. -/
theorem answer_zero_matches_canned_witness :
    envZeroHits.hits = [] ∧
    answerPOST envZeroHits = (⟨200, ABody.ok noContextText []⟩, 0) :=
  ⟨rfl, answer_zero_matches_canned envZeroHits (Or.inl rfl) (by decide)
    rfl ⟨[1], rfl⟩ rfl⟩

end AnswerFromDoc

namespace Ingest

/-! ### C2: clear-then-upsert makes re-ingestion an idempotent replace -/

theorem decVal_decDigits (n : Nat) : decVal (decDigits n) = n := by
  rw [decDigits]
  split
  · simp [decVal]
  · rename_i h
    have ih := decVal_decDigits (n / 10)
    unfold decVal
    rw [List.foldl_append]
    unfold decVal at ih
    rw [ih]
    simp
    omega
termination_by n
decreasing_by exact Nat.div_lt_self (by omega) (by omega)

theorem decDigits_injective : Function.Injective decDigits := by
  intro a b h
  have ha := decVal_decDigits a
  rw [h, decVal_decDigits] at ha
  omega

theorem mkRid_injective (d : JStr) :
    Function.Injective (fun i => d ++ [45] ++ decDigits i) := by
  intro a b h
  simp only [List.append_assoc] at h
  have h1 := List.append_cancel_left h
  have h2 : decDigits a = decDigits b := by
    simpa using h1
  exact decDigits_injective h2

theorem mkRecords_rids (d v : JStr) (vs : List Vec) :
    (mkRecords d v vs).map PineRec.rid =
      (List.range' 0 vs.length).map (fun i => d ++ [45] ++ decDigits i) := by
  unfold mkRecords
  rw [List.map_map]
  have hfun : (PineRec.rid ∘ fun iv : Nat × Vec =>
      ({ rid := d ++ [45] ++ decDigits iv.1
         values := iv.2.values
         document_id := d
         doc_version_id := v
         idx := iv.1
         path := iv.2.path
         text_snippet := safeSnippet iv.2.snippet 500 } : PineRec)) =
      (fun i => d ++ [45] ++ decDigits i) ∘ Prod.fst := rfl
  rw [hfun, ← List.map_map, List.enum, List.enumFrom_map_fst]

theorem mkRecords_rids_nodup (d v : JStr) (vs : List Vec) :
    ((mkRecords d v vs).map PineRec.rid).Nodup := by
  rw [mkRecords_rids]
  exact (List.nodup_range' ..).map (mkRid_injective d)

theorem foldl_upsertRec_of_nodup :
    ∀ (rs acc : List PineRec), ((acc ++ rs).map PineRec.rid).Nodup →
      rs.foldl upsertRec acc = acc ++ rs := by
  intro rs
  induction rs with
  | nil => intro acc _; simp
  | cons r rs ih =>
    intro acc h
    rw [List.map_append] at h
    have hdisj := (List.nodup_append.mp h).2.2
    have hnot : (acc.any (fun x => x.rid == r.rid)) = false := by
      rw [List.any_eq_false]
      intro x hx hbeq
      have hxr : x.rid = r.rid := by simpa using hbeq
      exact hdisj (List.mem_map_of_mem PineRec.rid hx)
        (by rw [hxr]; exact List.mem_map_of_mem PineRec.rid (List.mem_cons_self _ _))
    have hup : upsertRec acc r = acc ++ [r] := by
      unfold upsertRec
      rw [if_neg (by simp [hnot])]
    rw [List.foldl_cons, hup,
      ih (acc ++ [r]) (by simpa [List.append_assoc] using h)]
    simp

theorem foldl_upsertBatch_eq (init : List PineRec) (bs : List (List PineRec)) :
    bs.foldl upsertBatch init = bs.flatten.foldl upsertRec init := by
  induction bs generalizing init with
  | nil => rfl
  | cons b bs ih =>
    simp only [List.foldl_cons, List.flatten_cons, List.foldl_append]
    exact ih (upsertBatch init b)

theorem chunkArray_flatten {α : Type} (n : Nat) (hn : n ≠ 0) (l : List α) :
    (chunkArray l n).flatten = l := by
  rw [chunkArray.eq_def]
  split
  · rename_i h
    rcases h with h | h
    · rw [List.isEmpty_iff] at h
      simp [h]
    · exact absurd h hn
  · rw [List.flatten_cons, chunkArray_flatten n hn (l.drop n), List.take_append_drop]
termination_by l.length
decreasing_by
  rename_i h
  rw [not_or, List.isEmpty_iff] at h
  rcases l with _ | ⟨x, xs⟩
  · exact absurd rfl h.1
  · simp only [List.length_drop, List.length_cons]
    omega

theorem indexRun_eq_records (ns : List PineRec) (records : List PineRec)
    (h : (records.map PineRec.rid).Nodup) : indexRun ns records = records := by
  unfold indexRun
  rw [foldl_upsertBatch_eq, chunkArray_flatten 150 (by omega)]
  exact foldl_upsertRec_of_nodup records [] (by simpa)

/-- C2: for a fixed (document id, version id) pair, running the indexing
step twice leaves the namespace `doc:<document_id>:v:<doc_version_id>`
containing exactly the records of the second run — equal record list, hence
equal record count and id list — because each run clears the namespace and
upserts records with the deterministic ids `<document_id>-<chunk_index>`,
which are pairwise distinct within a run. -/
theorem ingest_reindex_second_run_wins (ns0 : List PineRec) (d v : JStr)
    (vs1 vs2 : List Vec) :
    indexRun (indexRun ns0 (mkRecords d v vs1)) (mkRecords d v vs2) =
      mkRecords d v vs2 ∧
    (indexRun (indexRun ns0 (mkRecords d v vs1)) (mkRecords d v vs2)).length =
      vs2.length ∧
    (indexRun (indexRun ns0 (mkRecords d v vs1)) (mkRecords d v vs2)).map PineRec.rid =
      (mkRecords d v vs2).map PineRec.rid := by
  have h2 := indexRun_eq_records (indexRun ns0 (mkRecords d v vs1))
    (mkRecords d v vs2) (mkRecords_rids_nodup d v vs2)
  refine ⟨h2, ?_, by rw [h2]⟩
  rw [h2]
  unfold mkRecords
  simp

end Ingest

namespace Ingest

/-! ### C6: embedding preserves order; snippets are capped code-point-safely -/

theorem unitsOf_eq_self_of_lt (l : List Nat) (h : ∀ cp ∈ l, cp < 0x10000) :
    unitsOf l = l := by
  induction l with
  | nil => rfl
  | cons a rest ih =>
    unfold unitsOf at *
    simp only [List.map_cons, List.flatten_cons]
    rw [unitsOfCp, if_pos (h a (List.mem_cons_self _ _)),
      ih (fun cp hcp => h cp (List.mem_cons_of_mem _ hcp))]
    rfl

theorem scrubUnicode_no_surrogate (s : JStr) :
    ∀ u ∈ scrubUnicode s, isSurrogate u = false := by
  intro u hu
  have := scrubUnicode_subset_keep s u hu
  unfold scrubKeep at this
  rcases hs : isSurrogate u
  · rfl
  · rw [hs] at this
    simp at this

theorem codePoints_scrub_take (s : JStr) (mx : Nat) :
    codePoints ((scrubUnicode s).take mx) = (scrubUnicode s).take mx := by
  refine codePoints_eq_self_of_no_high _ (fun c hc => ?_)
  have := scrubUnicode_no_surrogate s c (List.take_subset _ _ hc)
  unfold isSurrogate at this
  intro hcon
  simp [hcon.1, hcon.2] at this
  omega

theorem safeSnippet_eq_take (s : JStr) (hwf : ∀ u ∈ s, u < 0x10000) :
    safeSnippet s 500 = (scrubUnicode s).take 500 := by
  unfold safeSnippet sliceByCodepoints
  rw [codePoints_eq_self_of_no_high _ (fun c hc => ?_)]
  · rw [unitsOf_eq_self_of_lt]
    intro cp hcp
    exact hwf cp (scrubUnicode_mem_subset s cp (List.take_subset _ _ hcp))
  · have := scrubUnicode_no_surrogate s c hc
    unfold isSurrogate at this
    intro hcon
    simp [hcon.1, hcon.2] at this
    omega

theorem safeSnippet_safe (s : JStr) (hwf : ∀ u ∈ s, u < 0x10000) :
    (∀ u ∈ safeSnippet s 500, isSurrogate u = false) ∧
    (codePoints (safeSnippet s 500)).length ≤ 500 := by
  rw [safeSnippet_eq_take s hwf]
  constructor
  · intro u hu
    exact scrubUnicode_no_surrogate s u (List.take_subset _ _ hu)
  · rw [codePoints_scrub_take, List.length_take]
    omega

theorem embedBatch_map (embedOne : JStr → List Int) :
    ∀ (b pre : List JStr),
      ((b.map embedOne).enumFrom pre.length).map
        (fun di => ({ values := di.2
                      path := "root"
                      snippet := ((pre ++ b).getD di.1 []).take 500 } : Vec)) =
      b.map (fun c => ({ values := embedOne c
                         path := "root"
                         snippet := c.take 500 } : Vec)) := by
  intro b
  induction b with
  | nil => intro pre; rfl
  | cons c cs ih =>
    intro pre
    simp only [List.map_cons, List.enumFrom_cons]
    congr 1
    · have hget : (pre ++ c :: cs).getD pre.length [] = c := by
        rw [List.getD_eq_getElem?_getD, List.getElem?_append_right (Nat.le_refl _)]
        simp
      rw [hget]
    · have := ih (pre ++ [c])
      simp only [List.length_append, List.length_cons, List.length_nil] at this
      rw [List.append_assoc] at this
      simpa using this

/-- C6: when the embedding service returns one vector per input in order
(`create b = b.map embedOne`), `embedChunks` returns exactly one vector per
chunk, in chunk order, with `values[i] = embedOne chunk[i]` and the raw
snippet `chunk[i].slice(0, 500)`; and in every Pinecone record built from
those vectors the stored `text_snippet` (a `safeSnippet`, i.e. the scrubbed
snippet sliced by code points) contains no surrogate code unit and at most
500 code points. -/
theorem embedChunks_order_and_snippets (create : List JStr → List (List Int))
    (embedOne : JStr → List Int) (chunks : List JStr) (d v : JStr)
    (hc : ∀ b, create b = b.map embedOne)
    (hwf : ∀ c ∈ chunks, ∀ u ∈ c, u < 0x10000) :
    embedChunks create chunks =
      chunks.map (fun c => ({ values := embedOne c
                              path := "root"
                              snippet := c.take 500 } : Vec)) ∧
    (embedChunks create chunks).length = chunks.length ∧
    (∀ r ∈ mkRecords d v (embedChunks create chunks),
      (∀ u ∈ r.text_snippet, isSurrogate u = false) ∧
      (codePoints r.text_snippet).length ≤ 500) := by
  have hmain : embedChunks create chunks =
      chunks.map (fun c => ({ values := embedOne c
                              path := "root"
                              snippet := c.take 500 } : Vec)) := by
    unfold embedChunks
    have hbatch : ∀ b : List JStr,
        ((create b).enum.map fun di => ({ values := di.2
                                          path := "root"
                                          snippet := (b.getD di.1 []).take 500 } : Vec)) =
        b.map (fun c => ({ values := embedOne c
                           path := "root"
                           snippet := c.take 500 } : Vec)) := by
      intro b
      rw [hc b, List.enum]
      have := embedBatch_map embedOne b []
      simpa using this
    calc ((chunkArray chunks 96).map fun b =>
          (create b).enum.map fun di => ({ values := di.2
                                           path := "root"
                                           snippet := (b.getD di.1 []).take 500 } : Vec)).flatten
        = ((chunkArray chunks 96).map fun b =>
            b.map (fun c => ({ values := embedOne c
                               path := "root"
                               snippet := c.take 500 } : Vec))).flatten := by
          congr 1
          exact List.map_congr_left (fun b _ => hbatch b)
      _ = chunks.map (fun c => ({ values := embedOne c
                                  path := "root"
                                  snippet := c.take 500 } : Vec)) := by
          rw [← List.map_flatten, chunkArray_flatten 96 (by omega)]
  refine ⟨hmain, by rw [hmain]; simp, ?_⟩
  intro r hr
  unfold mkRecords at hr
  rcases List.mem_map.mp hr with ⟨iv, hiv, rfl⟩
  have hsnd : iv.2 ∈ embedChunks create chunks := by
    have := List.enumFrom_map_snd 0 (embedChunks create chunks)
    rw [← this]
    exact List.mem_map_of_mem Prod.snd hiv
  rw [hmain] at hsnd
  rcases List.mem_map.mp hsnd with ⟨c, hcmem, hcv⟩
  have hwf' : ∀ u ∈ iv.2.snippet, u < 0x10000 := by
    rw [← hcv]
    intro u hu
    exact hwf c hcmem u (List.take_subset _ _ hu)
  exact safeSnippet_safe iv.2.snippet hwf'

/-- Witness for C6 on a two-chunk input and the per-input double
`embedOneW`. -/
theorem embedChunks_order_and_snippets_witness :
    embedChunks createW [[97, 98], [99]] =
      [⟨[2], "root", [97, 98]⟩, ⟨[1], "root", [99]⟩] := by
  have h := (embedChunks_order_and_snippets createW embedOneW [[97, 98], [99]]
    [100] [118] (fun b => rfl) (by decide)).1
  rw [h]
  rfl

end Ingest

namespace Ingest

/-! ### C10: non-blank text always yields at least one chunk -/

theorem mem_dropWhile_of_not (p : Nat → Bool) (c : Nat) (hp : p c = false) :
    ∀ (l : JStr), c ∈ l → c ∈ l.dropWhile p := by
  intro l
  induction l with
  | nil => intro hc; simp at hc
  | cons a rest ih =>
    intro hc
    by_cases hpa : p a
    · rw [List.dropWhile_cons_of_pos hpa]
      rcases List.mem_cons.mp hc with rfl | hc
      · rw [hp] at hpa
        exact absurd hpa (by simp)
      · exact ih hc
    · rw [List.dropWhile_cons_of_neg hpa]
      exact hc

theorem jsTrim_ne_nil_of_mem (c : Nat) (l : JStr) (hc : c ∈ l)
    (hw : isJsWs c = false) : jsTrim l ≠ [] := by
  unfold jsTrim
  have h1 := mem_dropWhile_of_not isJsWs c hw l hc
  have h2 : c ∈ (l.dropWhile isJsWs).reverse := List.mem_reverse.mpr h1
  have h3 := mem_dropWhile_of_not isJsWs c hw _ h2
  intro hnil
  rw [List.reverse_eq_nil_iff] at hnil
  rw [hnil] at h3
  simp at h3

theorem exists_not_ws_of_jsTrim_ne_nil (l : JStr) (h : jsTrim l ≠ []) :
    ∃ c ∈ l, isJsWs c = false := by
  by_contra hall
  push_neg at hall
  apply h
  unfold jsTrim
  have hnil : l.dropWhile isJsWs = [] := List.dropWhile_eq_nil_iff.mpr (fun x hx => by
    have := hall x hx
    simpa using this)
  rw [hnil]
  rfl

theorem mem_normNl_of_ne_cr (c : Nat) (hc13 : c ≠ 13) :
    ∀ (l : JStr), c ∈ l → c ∈ normNl l
  | [], hc => by simp at hc
  | [a], hc => by simpa [normNl] using hc
  | a :: b :: rest, hc => by
    simp only [normNl]
    by_cases hab : (a == 13 && b == 10) = true
    · rw [if_pos hab]
      have ha : a = 13 := by
        simp at hab
        exact hab.1
      have hb : b = 10 := by
        simp at hab
        exact hab.2
      rcases List.mem_cons.mp hc with rfl | hc'
      · exact absurd ha hc13
      · rcases List.mem_cons.mp hc' with rfl | hc''
        · rw [hb]
          exact List.mem_cons_self _ _
        · exact List.mem_cons_of_mem _ (mem_normNl_of_ne_cr c hc13 rest hc'')
    · rw [if_neg hab]
      rcases List.mem_cons.mp hc with rfl | hc'
      · exact List.mem_cons_self _ _
      · exact List.mem_cons_of_mem _ (mem_normNl_of_ne_cr c hc13 (b :: rest) hc')

theorem splitBlank_singleton (a : Nat) : splitBlank [a] = [[a]] := by
  rw [splitBlank.eq_def]

theorem splitBlank_covers (c : Nat) (hc10 : c ≠ 10) :
    ∀ (l : JStr), c ∈ l → ∃ seg ∈ splitBlank l, c ∈ seg
  | [], hc => by simp at hc
  | [a], hc => ⟨[a], by rw [splitBlank_singleton]; simp, by simpa using hc⟩
  | a :: b :: rest2, hc => by
    rw [splitBlank.eq_def]
    by_cases hab : (a == 10 && b == 10) = true
    · simp only [if_pos hab]
      have ha : a = 10 := by
        simp at hab
        exact hab.1
      have hcr : c ∈ rest2 := by
        rcases List.mem_cons.mp hc with rfl | hc'
        · exact absurd ha hc10
        · rcases List.mem_cons.mp hc' with rfl | hc''
          · have hb : c = 10 := by
              simp at hab
              exact hab.2
            exact absurd hb hc10
          · exact hc''
      have hcd : c ∈ rest2.dropWhile (fun x => x == 10) :=
        mem_dropWhile_of_not _ c (by simp [hc10]) rest2 hcr
      obtain ⟨seg, hseg, hcseg⟩ := splitBlank_covers c hc10 _ hcd
      exact ⟨seg, List.mem_cons_of_mem _ hseg, hcseg⟩
    · simp only [if_neg hab]
      rcases hsb : splitBlank (b :: rest2) with _ | ⟨s, ss⟩
      · exact absurd hsb (splitBlank_ne_nil _)
      · rcases List.mem_cons.mp hc with rfl | hc'
        · exact ⟨c :: s, List.mem_cons_self _ _, List.mem_cons_self _ _⟩
        · obtain ⟨seg, hseg, hcseg⟩ := splitBlank_covers c hc10 _ hc'
          rw [hsb] at hseg
          rcases List.mem_cons.mp hseg with rfl | hseg'
          · exact ⟨a :: seg, List.mem_cons_self _ _, List.mem_cons_of_mem _ hcseg⟩
          · exact ⟨seg, List.mem_cons_of_mem _ hseg', hcseg⟩
termination_by l _ => l.length
decreasing_by
  · have h' := fun (l' : List Nat) =>
      (List.dropWhile_sublist (l := l') (fun x => x == 10)).length_le
    simp only [List.length_cons]
    exact Nat.lt_of_le_of_lt (h' _) (by omega)
  · simp only [List.length_cons]
    omega

end Ingest

namespace Ingest

theorem jsTrim_eq_self_of_ends (l : JStr)
    (h1 : ∀ x ∈ l.head?, isJsWs x = false)
    (h2 : ∀ x ∈ l.getLast?, isJsWs x = false) : jsTrim l = l := by
  unfold jsTrim
  have hd : l.dropWhile isJsWs = l := by
    cases l with
    | nil => rfl
    | cons a t => exact List.dropWhile_cons_of_neg (by simpa using h1 a rfl)
  rw [hd]
  have hd2 : l.reverse.dropWhile isJsWs = l.reverse := by
    cases hre : l.reverse with
    | nil => rfl
    | cons a t =>
      apply List.dropWhile_cons_of_neg
      have hla : l.getLast? = some a := by
        rw [← List.head?_reverse, hre]
        rfl
      simpa using h2 a hla
  rw [hd2, List.reverse_reverse]

theorem jsTrim_ends (l : JStr) :
    (∀ x ∈ (jsTrim l).head?, isJsWs x = false) ∧
    (∀ x ∈ (jsTrim l).getLast?, isJsWs x = false) := by
  unfold jsTrim
  constructor
  · intro x hx
    rw [List.head?_reverse] at hx
    obtain ⟨t, ht⟩ := List.dropWhile_suffix (l := (l.dropWhile isJsWs).reverse) isJsWs
    have hgw : (l.dropWhile isJsWs).reverse.getLast? = some x := by
      rw [← ht, List.getLast?_append]
      rw [Option.mem_def] at hx
      rw [hx]
      rfl
    rw [List.getLast?_reverse] at hgw
    have hnot := List.head?_dropWhile_not isJsWs l
    rw [hgw] at hnot
    exact hnot
  · intro x hx
    rw [List.getLast?_reverse] at hx
    have hnot := List.head?_dropWhile_not isJsWs (l.dropWhile isJsWs).reverse
    rw [Option.mem_def] at hx
    rw [hx] at hnot
    exact hnot

theorem jsTrim_idem (l : JStr) : jsTrim (jsTrim l) = jsTrim l :=
  jsTrim_eq_self_of_ends _ (jsTrim_ends l).1 (jsTrim_ends l).2

theorem jsTrim_append_fixed (buf p : JStr) (hb : jsTrim buf = buf) (hbne : buf ≠ [])
    (hp : jsTrim p = p) (hpne : p ≠ []) :
    jsTrim (buf ++ [10, 10] ++ p) = buf ++ [10, 10] ++ p := by
  apply jsTrim_eq_self_of_ends
  · intro x hx
    cases buf with
    | nil => exact absurd rfl hbne
    | cons a t =>
      obtain rfl : a = x := by simpa using hx
      have hends := (jsTrim_ends (a :: t)).1
      rw [hb] at hends
      exact hends a rfl
  · intro x hx
    rcases hgl : p.getLast? with _ | b
    · rw [List.getLast?_eq_none_iff] at hgl
      exact absurd hgl hpne
    · obtain rfl : b = x := by
        rw [List.getLast?_append, List.getLast?_append, hgl] at hx
        simpa using hx
      have hends := (jsTrim_ends p).2
      rw [hp] at hends
      exact hends b hgl

theorem paras_elem_trimmed (text : JStr) :
    ∀ p ∈ paras text, jsTrim p = p ∧ p ≠ [] := by
  intro p hp
  unfold paras at hp
  rcases List.mem_filter.mp hp with ⟨hmap, hne⟩
  rcases List.mem_map.mp hmap with ⟨seg, _, rfl⟩
  refine ⟨jsTrim_idem seg, ?_⟩
  simpa using hne

theorem paras_ne_nil (text : JStr) (h : jsTrim text ≠ []) : paras text ≠ [] := by
  obtain ⟨c, hcmem, hcw⟩ := exists_not_ws_of_jsTrim_ne_nil text h
  have hc13 : c ≠ 13 := by
    intro h13
    rw [h13] at hcw
    simp [isJsWs] at hcw
  have hc10 : c ≠ 10 := by
    intro h10
    rw [h10] at hcw
    simp [isJsWs] at hcw
  have h1 : c ∈ normNl text := mem_normNl_of_ne_cr c hc13 text hcmem
  obtain ⟨seg, hseg, hcseg⟩ := splitBlank_covers c hc10 _ h1
  have htr : jsTrim seg ≠ [] := jsTrim_ne_nil_of_mem c seg hcseg hcw
  unfold paras
  apply List.ne_nil_of_mem (a := jsTrim seg)
  rw [List.mem_filter]
  refine ⟨List.mem_map_of_mem jsTrim hseg, ?_⟩
  simpa using htr

theorem flushChunk_ne_nil (maxChars overlap : Nat) (buf : JStr)
    (h : jsTrim buf ≠ []) : flushChunk maxChars overlap buf ≠ [] := by
  unfold flushChunk
  rw [if_neg (by simpa using h)]
  split
  · rename_i hlen
    have hpos : 0 < (jsTrim buf).length := List.length_pos.mpr h
    simp only [hardSliceGo, if_pos hpos]
    split <;> simp
  · simp

theorem smartChunkGo_ne_nil (maxChars overlap : Nat) :
    ∀ (ps : List JStr) (buf : JStr),
      (∀ p ∈ ps, jsTrim p = p ∧ p ≠ []) →
      ((buf = [] ∧ ps ≠ []) ∨ (jsTrim buf = buf ∧ buf ≠ [])) →
      smartChunkGo maxChars overlap ps buf ≠ [] := by
  intro ps
  induction ps with
  | nil =>
    intro buf hps hbuf
    rcases hbuf with ⟨_, hne⟩ | ⟨htr, hne⟩
    · exact absurd rfl hne
    · unfold smartChunkGo
      exact flushChunk_ne_nil maxChars overlap buf (by rw [htr]; exact hne)
  | cons p ps ih =>
    intro buf hps hbuf
    have hp := hps p (List.mem_cons_self _ _)
    have hps' : ∀ q ∈ ps, jsTrim q = q ∧ q ≠ [] :=
      fun q hq => hps q (List.mem_cons_of_mem _ hq)
    simp only [smartChunkGo]
    split
    · -- buf.isEmpty: the candidate is p alone
      split
      · apply List.append_ne_nil_of_right_ne_nil
        split
        · exact List.append_ne_nil_of_left_ne_nil
            (flushChunk_ne_nil maxChars overlap p (by rw [hp.1]; exact hp.2)) _
        · exact ih p hps' (Or.inr hp)
      · exact ih p hps' (Or.inr hp)
    · rename_i hbe
      have hbuf' : jsTrim buf = buf ∧ buf ≠ [] := by
        rcases hbuf with ⟨hbnil, _⟩ | hb
        · rw [hbnil] at hbe
          simp at hbe
        · exact hb
      split
      · exact List.append_ne_nil_of_left_ne_nil
          (flushChunk_ne_nil maxChars overlap buf (by rw [hbuf'.1]; exact hbuf'.2)) _
      · exact ih (buf ++ [10, 10] ++ p) hps'
          (Or.inr ⟨jsTrim_append_fixed buf p hbuf'.1 hbuf'.2 hp.1 hp.2,
            by simp⟩)

/-- C10: whenever the text handed to the chunker still has content after
trimming, `smartChunk` (at the orchestrator's defaults 1800/200) returns at
least one chunk, so the orchestrator's fatal `No chunks produced` branch is
unreachable for non-blank sanitized text. -/
theorem smartChunk_ne_nil_of_trim_ne_nil (text : JStr) (h : jsTrim text ≠ []) :
    smartChunk text 1800 200 ≠ [] := by
  unfold smartChunk
  exact smartChunkGo_ne_nil 1800 200 (paras text) []
    (paras_elem_trimmed text) (Or.inl ⟨rfl, paras_ne_nil text h⟩)

/-- Witness for C10 at a concrete one-letter text. -/
theorem smartChunk_ne_nil_of_trim_ne_nil_witness :
    jsTrim [97] ≠ [] ∧ smartChunk [97] 1800 200 ≠ [] :=
  ⟨by decide, smartChunk_ne_nil_of_trim_ne_nil [97] (by decide)⟩

end Ingest

namespace Ingest

/-! ### C8: `scrubUnicode` is idempotent -/

theorem noWsNl_cons (a : Nat) (l : List Nat) :
    noWsNl (a :: l) ↔
      (∀ b ∈ l.head?, ¬(isWsTab a = true ∧ b = 10)) ∧ noWsNl l := by
  cases l with
  | nil => simp [noWsNl]
  | cons b t => simp [noWsNl]

theorem no3Nl_cons (a : Nat) (l : List Nat) :
    no3Nl (a :: l) ↔
      (∀ b ∈ l.head?, ∀ c ∈ l.tail.head?, ¬(a = 10 ∧ b = 10 ∧ c = 10)) ∧
        no3Nl l := by
  cases l with
  | nil => simp [no3Nl]
  | cons b t =>
    cases t with
    | nil => simp [no3Nl]
    | cons c t2 => simp [no3Nl]

theorem noWsNl_tail {a : Nat} {l : List Nat} (h : noWsNl (a :: l)) : noWsNl l :=
  ((noWsNl_cons a l).mp h).2

theorem no3Nl_tail {a : Nat} {l : List Nat} (h : no3Nl (a :: l)) : no3Nl l :=
  ((no3Nl_cons a l).mp h).2

theorem wsNlSq_noWsNl (l : List Nat) : noWsNl (wsNlSq l) := by
  induction l with
  | nil => simp [wsNlSq, noWsNl]
  | cons c rest ih =>
    simp only [wsNlSq]
    split
    · exact ih
    · rename_i hcond
      rw [noWsNl_cons]
      refine ⟨?_, ih⟩
      intro b hb hcontra
      apply hcond
      rw [Option.mem_def] at hb
      simp [hcontra.1, hb, hcontra.2]

theorem wsNlSq_eq_self (l : List Nat) (h : noWsNl l) : wsNlSq l = l := by
  induction l with
  | nil => rfl
  | cons c rest ih =>
    have hrest := noWsNl_tail h
    simp only [wsNlSq, ih hrest]
    rw [if_neg ?_]
    intro hcond
    simp only [Bool.and_eq_true, beq_iff_eq] at hcond
    have hpair := ((noWsNl_cons c rest).mp h).1
    exact hpair 10 (by rw [hcond.2]; rfl) ⟨hcond.1, rfl⟩

theorem nlSq_head? (l : List Nat) : (nlSq l).head? = l.head? := by
  induction l with
  | nil => rfl
  | cons c rest ih =>
    simp only [nlSq]
    split
    · rename_i hcond
      simp only [Bool.and_eq_true, beq_iff_eq] at hcond
      rw [hcond.1.2, hcond.1.1]
      rfl
    · rfl

end Ingest

namespace Ingest

theorem nlSq_no3Nl (l : List Nat) : no3Nl (nlSq l) := by
  induction l with
  | nil => simp [nlSq, no3Nl]
  | cons c rest ih =>
    simp only [nlSq]
    split
    · exact ih
    · rename_i hcond
      rw [no3Nl_cons]
      refine ⟨?_, ih⟩
      intro b hb d hd hcontra
      apply hcond
      rw [Option.mem_def] at hb hd
      simp [hcontra.1, hb, hd, hcontra.2.1, hcontra.2.2]

theorem nlSq_eq_self (l : List Nat) (h : no3Nl l) : nlSq l = l := by
  induction l with
  | nil => rfl
  | cons c rest ih =>
    have hrest := no3Nl_tail h
    simp only [nlSq, ih hrest]
    rw [if_neg ?_]
    intro hcond
    simp only [Bool.and_eq_true, beq_iff_eq] at hcond
    have htrip := ((no3Nl_cons c rest).mp h).1
    exact htrip 10 (by rw [hcond.1.2]; rfl) 10 (by rw [hcond.2]; rfl)
      ⟨hcond.1.1, rfl, rfl⟩

theorem nlSq_noWsNl (l : List Nat) (h : noWsNl l) : noWsNl (nlSq l) := by
  induction l with
  | nil => simp [nlSq, noWsNl]
  | cons c rest ih =>
    have hrest := noWsNl_tail h
    simp only [nlSq]
    split
    · exact ih hrest
    · rw [noWsNl_cons]
      refine ⟨?_, ih hrest⟩
      intro b hb
      rw [Option.mem_def, nlSq_head?] at hb
      exact ((noWsNl_cons c rest).mp h).1 b hb

theorem pre_head?_eq {l' l : List Nat} (h : l' <+: l) (hne : l' ≠ []) :
    l'.head? = l.head? := by
  cases l' with
  | nil => exact absurd rfl hne
  | cons b t =>
    cases l with
    | nil => exact absurd (List.prefix_nil.mp h) (by simp)
    | cons y u =>
      rw [List.cons_prefix_cons] at h
      rw [h.1]
      rfl

theorem noWsNl_of_pre : ∀ (l' l : List Nat), noWsNl l → l' <+: l → noWsNl l' := by
  intro l'
  induction l' with
  | nil => intro l _ _; simp [noWsNl]
  | cons a l'' ih =>
    intro l h hpre
    cases l with
    | nil => exact absurd (List.prefix_nil.mp hpre) (by simp)
    | cons x rest =>
      rw [List.cons_prefix_cons] at hpre
      obtain ⟨rfl, hpre'⟩ := hpre
      rw [noWsNl_cons]
      constructor
      · intro b hb
        rw [Option.mem_def] at hb
        have hrb : rest.head? = some b := by
          rw [← pre_head?_eq hpre' (by intro hnil; rw [hnil] at hb; cases hb)]
          exact hb
        exact ((noWsNl_cons a rest).mp h).1 b hrb
      · exact ih rest (noWsNl_tail h) hpre'

theorem noWsNl_suffix : ∀ (t l' : List Nat), noWsNl (t ++ l') → noWsNl l' := by
  intro t
  induction t with
  | nil => intro l' h; exact h
  | cons a t' ih => intro l' h; exact ih l' (noWsNl_tail h)

theorem no3Nl_of_pre : ∀ (l' l : List Nat), no3Nl l → l' <+: l → no3Nl l' := by
  intro l'
  induction l' with
  | nil => intro l _ _; simp [no3Nl]
  | cons a l'' ih =>
    intro l h hpre
    cases l with
    | nil => exact absurd (List.prefix_nil.mp hpre) (by simp)
    | cons x rest =>
      rw [List.cons_prefix_cons] at hpre
      obtain ⟨rfl, hpre'⟩ := hpre
      rw [no3Nl_cons]
      constructor
      · intro b hb d hd
        rw [Option.mem_def] at hb hd
        have hne : l'' ≠ [] := by intro hnil; rw [hnil] at hb; cases hb
        have hrb : rest.head? = some b := by
          rw [← pre_head?_eq hpre' hne]
          exact hb
        have hrd : rest.tail.head? = some d := by
          cases l'' with
          | nil => exact absurd rfl hne
          | cons b' t' =>
            have hb' : b' = b := by
              injection hb with hb''
            cases rest with
            | nil => exact absurd (List.prefix_nil.mp hpre') (by simp)
            | cons y u =>
              rw [List.cons_prefix_cons] at hpre'
              have hne2 : t' ≠ [] := by
                intro hnil
                rw [hnil] at hd
                cases hd
              simp only [List.tail_cons]
              rw [← pre_head?_eq hpre'.2 hne2]
              exact hd
        exact ((no3Nl_cons a rest).mp h).1 b hrb d hrd
      · exact ih rest (no3Nl_tail h) hpre'

theorem no3Nl_suffix : ∀ (t l' : List Nat), no3Nl (t ++ l') → no3Nl l' := by
  intro t
  induction t with
  | nil => intro l' h; exact h
  | cons a t' ih => intro l' h; exact ih l' (no3Nl_tail h)

theorem jsTrim_prefix_dropWhile (l : List Nat) :
    jsTrim l <+: l.dropWhile isJsWs := by
  unfold jsTrim
  obtain ⟨t, ht⟩ := List.dropWhile_suffix (l := (l.dropWhile isJsWs).reverse) isJsWs
  refine ⟨t.reverse, ?_⟩
  have := congrArg List.reverse ht
  rw [List.reverse_append, List.reverse_reverse] at this
  exact this

theorem noWsNl_jsTrim (l : List Nat) (h : noWsNl l) : noWsNl (jsTrim l) := by
  obtain ⟨t, ht⟩ := List.dropWhile_suffix (l := l) isJsWs
  have hsuf : noWsNl (l.dropWhile isJsWs) := noWsNl_suffix t _ (by rw [ht]; exact h)
  exact noWsNl_of_pre _ _ hsuf (jsTrim_prefix_dropWhile l)

theorem no3Nl_jsTrim (l : List Nat) (h : no3Nl l) : no3Nl (jsTrim l) := by
  obtain ⟨t, ht⟩ := List.dropWhile_suffix (l := l) isJsWs
  have hsuf : no3Nl (l.dropWhile isJsWs) := no3Nl_suffix t _ (by rw [ht]; exact h)
  exact no3Nl_of_pre _ _ hsuf (jsTrim_prefix_dropWhile l)

end Ingest

namespace Ingest

/-- C8: the pipeline's text-sanitization function `scrubUnicode` (character
stripping, whitespace collapsing before line feeds, newline-run collapsing
and trimming) is idempotent: applying it to its own output changes
nothing. -/
theorem scrubUnicode_idempotent (x : JStr) :
    scrubUnicode (scrubUnicode x) = scrubUnicode x := by
  by_cases hx : x = []
  · rw [hx]
    simp [scrubUnicode]
  · by_cases hynil : scrubUnicode x = []
    · rw [hynil]
      simp [scrubUnicode]
    · have hyform : scrubUnicode x = jsTrim (nlSq (wsNlSq (x.filter scrubKeep))) := by
        rw [scrubUnicode, if_neg hx]
      have hno3 : no3Nl (scrubUnicode x) := by
        rw [hyform]
        exact no3Nl_jsTrim _ (nlSq_no3Nl _)
      have hnoWs : noWsNl (scrubUnicode x) := by
        rw [hyform]
        exact noWsNl_jsTrim _ (nlSq_noWsNl _ (wsNlSq_noWsNl _))
      have hfilter : (scrubUnicode x).filter scrubKeep = scrubUnicode x :=
        List.filter_eq_self.mpr (scrubUnicode_subset_keep x)
      have htrimfix : jsTrim (scrubUnicode x) = scrubUnicode x := by
        rw [hyform]
        exact jsTrim_idem _
      rw [scrubUnicode, if_neg hynil, hfilter, wsNlSq_eq_self _ hnoWs,
        nlSq_eq_self _ hno3, htrimfix]

end Ingest

namespace Ingest

/-! ### C4: one paragraph of length maxChars + 1 at the defaults -/

theorem hardSlice_1801 (s : JStr) (hlen : s.length = 1801) :
    hardSliceGo s 1800 200 (s.length + 1) 0 = [s.take 1800, s.drop 1600] := by
  have hcond1 : 0 < s.length := by omega
  have hmin1 : min (0 + 1800) s.length = 1800 := by
    rw [hlen]
    decide
  have hne1 : ¬(1800 = s.length) := by omega
  rw [hardSliceGo, if_pos hcond1]
  simp only [hmin1, List.drop_zero, Nat.sub_zero]
  rw [if_neg hne1]
  have h1600 : (1800 - 200 : Nat) = 1600 := by norm_num
  rw [h1600]
  congr 1
  have hfuel : s.length = 1800 + 1 := by omega
  rw [hfuel, hardSliceGo]
  have hcond2 : 1600 < s.length := by omega
  rw [if_pos hcond2]
  have hmin2 : min (1600 + 1800) s.length = s.length := by
    rw [hlen]
    decide
  simp only [hmin2]
  rw [if_true]
  rw [List.take_of_length_le (by simp [hlen])]

/-- C4: for an input that is exactly one paragraph (its paragraph list is
the input itself) of length `maxChars + 1 = 1801` at the defaults
(1800, 200), `smartChunk` produces at least 2 chunks, each of length at most
1800, and the first 200 code units of each later chunk equal the last 200
code units of its predecessor. -/
theorem smartChunk_boundary_overlap (s : JStr)
    (hp : paras s = [s]) (hlen : s.length = 1801) :
    2 ≤ (smartChunk s 1800 200).length ∧
    (∀ c ∈ smartChunk s 1800 200, c.length ≤ 1800) ∧
    (∀ i, i + 1 < (smartChunk s 1800 200).length →
      ((smartChunk s 1800 200).getD (i + 1) []).take 200 =
        ((smartChunk s 1800 200).getD i []).drop
          (((smartChunk s 1800 200).getD i []).length - 200)) := by
  have hst := paras_elem_trimmed s s (by rw [hp]; exact List.mem_singleton_self _)
  have hc1 : 1800 < s.length := by omega
  have hc2 : ¬(3 * 1800 < 2 * s.length) := by omega
  have hflushnil : flushChunk 1800 200 [] = [] := by
    simp [flushChunk, jsTrim]
  have hfl : flushChunk 1800 200 s = hardSliceGo s 1800 200 (s.length + 1) 0 := by
    simp only [flushChunk, hst.1]
    rw [if_neg (by simpa using hst.2), if_pos hc1]
  have hcompute : smartChunk s 1800 200 = [s.take 1800, s.drop 1600] := by
    unfold smartChunk
    rw [hp]
    simp only [smartChunkGo, List.isEmpty_nil, if_true, hc1, hc2, ite_true,
      ite_false, if_false]
    rw [hflushnil, List.nil_append, hfl, hardSlice_1801 s hlen]
  refine ⟨by rw [hcompute]; simp, ?_, ?_⟩
  · intro c hc
    rw [hcompute] at hc
    rcases List.mem_cons.mp hc with rfl | hc'
    · simp
    · rcases List.mem_singleton.mp (by simpa using hc') with rfl
      simp only [List.length_drop, hlen]
      omega
  · intro i hi
    rw [hcompute] at hi ⊢
    simp only [List.length_cons, List.length_nil] at hi
    have hi0 : i = 0 := by omega
    subst hi0
    simp only [List.getD_cons_succ, List.getD_cons_zero]
    have hlen1800 : (s.take 1800).length = 1800 := by
      rw [List.length_take, hlen]
      decide
    rw [hlen1800, List.take_drop]

/-- Witness for C4 on the concrete paragraph of 1801 letters `a`. -/
theorem smartChunk_boundary_overlap_witness :
    paras (List.replicate 1801 97) = [List.replicate 1801 97] ∧
    2 ≤ (smartChunk (List.replicate 1801 97) 1800 200).length := by
  have hchar : ∀ c ∈ List.replicate 1801 (97 : Nat), c = 97 :=
    fun c hc => List.eq_of_mem_replicate hc
  have hne : (List.replicate 1801 (97 : Nat)) ≠ [] := by
    apply List.ne_nil_of_length_pos
    rw [List.length_replicate]
    omega
  have hp : paras (List.replicate 1801 97) = [List.replicate 1801 97] := by
    unfold paras
    rw [normNl_no_cr _ (fun c hc => by rw [hchar c hc]; decide),
      splitBlank_no_nl _ (fun c hc => by rw [hchar c hc]; decide)]
    rw [List.map_singleton,
      jsTrim_eq_self_of_no_ws _ (fun c hc => by rw [hchar c hc]; decide)]
    rw [List.filter_cons]
    simp only [List.isEmpty_eq_false.mpr hne, Bool.not_false, if_true, List.filter_nil]
  refine ⟨hp, (smartChunk_boundary_overlap _ hp ?_).1⟩
  rw [List.length_replicate]

end Ingest

namespace Ingest

/-! ### C1: fatal-failure bookkeeping of the ingest orchestrator -/

theorem scrub_32_nil : scrubUnicode [32] = [] := by decide

theorem sanitizeUnicode_nil : sanitizeUnicode [] = [] := by decide

theorem smartChunk_nil : smartChunk [] 1800 200 = [] := by
  unfold smartChunk paras
  rw [show normNl [] = [] from rfl, splitBlank_nil]
  simp [jsTrim, smartChunkGo, flushChunk]

theorem smartChunk_single_a : smartChunk [97] 1800 200 = [[97]] := by
  have hp : paras [97] = [[97]] := by
    unfold paras
    rw [normNl_no_cr _ (by decide), splitBlank_no_nl _ (by decide)]
    simp [jsTrim_eq_self_of_no_ws [97] (by decide)]
  unfold smartChunk
  rw [hp]
  simp [smartChunkGo, flushChunk, jsTrim_eq_self_of_no_ws [97] (by decide)]

/-- Counterexample to C1 as stated: an ingest run whose extraction yields no
text is one of the named fatal pipeline failures, yet `POST` answers it with
HTTP 400, not a 500-equivalent (`return NextResponse.json({error: msg},
{status: 400})` in the `!rawText` branch); the version is still marked
`error` and the job `failed`. -/
theorem ingest_empty_extraction_status_400 :
    (ingestPOST envNoText [100] [118] dbW).2.status = 400 ∧
    (ingestPOST envNoText [100] [118] dbW).2.status ≠ 500 ∧
    (ingestPOST envNoText [100] [118] dbW).1.versionStatus =
      [([118], "error")] := by
  refine ⟨rfl, by decide, rfl⟩

/-- C1 (amended): for every fatal pipeline failure — download failure, empty
extraction, empty chunking, embedding-dimension mismatch, vector index
upsert failure — the orchestrator aborts, sets the DocumentVersion status to
`error`, upserts a failed JobRecord carrying the error message, and returns
a non-2xx error response with a descriptive message: status 500 for
download, dimension and upsert failures, but status 400 for empty
extraction and empty chunking. -/
theorem ingest_fatal_failures_bookkeeping (env : IngestEnv) (d v : JStr) (db : Db) :
    (∀ e, env.download = Except.error e →
      ingestPOST env d v db =
        (markFailed { db with versionStatus := setAssoc db.versionStatus v "processing" } d v
          ("Download failed from bucket=" ++ env.bucket ++ " key=" ++ env.key ++ ": " ++ e),
         ⟨500, RespBody.err
          ("Download failed from bucket=" ++ env.bucket ++ " key=" ++ env.key ++ ": " ++ e)⟩)) ∧
    (∀ bytes, env.download = Except.ok bytes → env.extract bytes = [] →
      ingestPOST env d v db =
        (markFailed { db with versionStatus := setAssoc db.versionStatus v "processing" } d v
          "No text extracted (unsupported or empty)",
         ⟨400, RespBody.err "No text extracted (unsupported or empty)"⟩)) ∧
    (∀ bytes, env.download = Except.ok bytes → env.extract bytes ≠ [] →
      smartChunk (sanitizeUnicode (env.nfc (scrubUnicode (env.extract bytes)))) 1800 200 = [] →
      ingestPOST env d v db =
        (markFailed { db with versionStatus := setAssoc db.versionStatus v "processing" } d v
          "No chunks produced",
         ⟨400, RespBody.err "No chunks produced"⟩)) ∧
    (∀ bytes vectors, env.download = Except.ok bytes → env.extract bytes ≠ [] →
      smartChunk (sanitizeUnicode (env.nfc (scrubUnicode (env.extract bytes)))) 1800 200 ≠ [] →
      env.embedOut (smartChunk (sanitizeUnicode (env.nfc (scrubUnicode (env.extract bytes)))) 1800 200) =
        Except.ok vectors →
      vectors.any (fun vec => vec.values.length != env.pineconeDim) = true →
      ingestPOST env d v db =
        (markFailed { db with versionStatus := setAssoc db.versionStatus v "processing" } d v
          ("Embedding dim " ++ headDimStr vectors ++ " != Pinecone index dim " ++
            toString env.pineconeDim),
         ⟨500, RespBody.err
          ("Embedding dim " ++ headDimStr vectors ++ " != Pinecone index dim " ++
            toString env.pineconeDim)⟩)) ∧
    (∀ bytes vectors e, env.download = Except.ok bytes → env.extract bytes ≠ [] →
      smartChunk (sanitizeUnicode (env.nfc (scrubUnicode (env.extract bytes)))) 1800 200 ≠ [] →
      env.embedOut (smartChunk (sanitizeUnicode (env.nfc (scrubUnicode (env.extract bytes)))) 1800 200) =
        Except.ok vectors →
      vectors.any (fun vec => vec.values.length != env.pineconeDim) = false →
      env.upsert (mkRecords d v vectors) = Except.error e →
      ingestPOST env d v db =
        (markFailed { db with versionStatus := setAssoc db.versionStatus v "processing" } d v
          ("pinecone upsert failed: " ++ e),
         ⟨500, RespBody.err ("pinecone upsert failed: " ++ e)⟩)) := by
  refine ⟨?_, ?_, ?_, ?_, ?_⟩
  · intro e he
    simp only [ingestPOST, he]
  · intro bytes hb hx
    simp only [ingestPOST, hb, hx, List.isEmpty_nil, if_true]
  · intro bytes hb hx hch
    have hxe : (env.extract bytes).isEmpty = false := by simpa using hx
    simp only [ingestPOST, hb, hxe, Bool.false_eq_true, if_false, hch,
      List.isEmpty_nil, if_true]
  · intro bytes vectors hb hx hch hemb hany
    have hxe : (env.extract bytes).isEmpty = false := by simpa using hx
    have hche : (smartChunk (sanitizeUnicode (env.nfc (scrubUnicode (env.extract bytes)))) 1800 200).isEmpty = false := by
      simpa using hch
    simp only [ingestPOST, hb, hxe, Bool.false_eq_true, if_false, hche, hemb,
      hany, if_true]
  · intro bytes vectors e hb hx hch hemb hany hup
    have hxe : (env.extract bytes).isEmpty = false := by simpa using hx
    have hche : (smartChunk (sanitizeUnicode (env.nfc (scrubUnicode (env.extract bytes)))) 1800 200).isEmpty = false := by
      simpa using hch
    simp only [ingestPOST, hb, hxe, Bool.false_eq_true, if_false, hche, hemb,
      hany, hup]

end Ingest

namespace Ingest

/-- Witness for C1 (amended) instantiating all five fatal branches on
concrete environments. -/
theorem ingest_fatal_failures_bookkeeping_witness :
    ingestPOST envDl [100] [118] dbW =
      (markFailed { dbW with versionStatus := setAssoc dbW.versionStatus [118] "processing" }
        [100] [118] ("Download failed from bucket=" ++ envDl.bucket ++ " key=" ++
          envDl.key ++ ": " ++ "boom"),
       ⟨500, RespBody.err ("Download failed from bucket=" ++ envDl.bucket ++ " key=" ++
          envDl.key ++ ": " ++ "boom")⟩) ∧
    (ingestPOST envNoText [100] [118] dbW).2.status = 400 ∧
    (ingestPOST envNoChunks [100] [118] dbW).2 =
      ⟨400, RespBody.err "No chunks produced"⟩ ∧
    (ingestPOST envDim [100] [118] dbW).2.status = 500 ∧
    (ingestPOST envUp [100] [118] dbW).2 =
      ⟨500, RespBody.err ("pinecone upsert failed: " ++ "down")⟩ := by
  have hbase := ingest_fatal_failures_bookkeeping envDl [100] [118] dbW
  have h1 := hbase.1 "boom" rfl
  have h2 := (ingest_fatal_failures_bookkeeping envNoText [100] [118] dbW).2.1
    [97] rfl rfl
  have hch : smartChunk (sanitizeUnicode (envNoChunks.nfc (scrubUnicode
      (envNoChunks.extract [97])))) 1800 200 = [] := by
    show smartChunk (sanitizeUnicode (scrubUnicode [32])) 1800 200 = []
    rw [scrub_32_nil, sanitizeUnicode_nil, smartChunk_nil]
  have h3 := (ingest_fatal_failures_bookkeeping envNoChunks [100] [118] dbW).2.2.1
    [97] rfl (by decide) hch
  have hcore : smartChunk (sanitizeUnicode (scrubUnicode [97])) 1800 200 = [[97]] := by
    rw [show scrubUnicode [97] = [97] by decide,
      show sanitizeUnicode [97] = [97] by decide, smartChunk_single_a]
  have h4 := (ingest_fatal_failures_bookkeeping envDim [100] [118] dbW).2.2.2.1
    [97] [⟨[1, 2], "root", [97]⟩] rfl (by decide)
    (by
      show smartChunk (sanitizeUnicode (scrubUnicode [97])) 1800 200 ≠ []
      rw [hcore]
      decide)
    rfl (by decide)
  have h5 := (ingest_fatal_failures_bookkeeping envUp [100] [118] dbW).2.2.2.2
    [97] [⟨[1], "root", [97]⟩] "down" rfl (by decide)
    (by
      show smartChunk (sanitizeUnicode (scrubUnicode [97])) 1800 200 ≠ []
      rw [hcore]
      decide)
    rfl (by decide) rfl
  refine ⟨h1, ?_, ?_, ?_, ?_⟩
  · rw [h2]
  · rw [h3]
  · rw [h4]
  · rw [h5]

end Ingest
